import Mathlib

set_option maxHeartbeats 1000000
set_option maxRecDepth 100000

/- Shallow embedding of bonfire's ranking/aggregation engine
   (src/bonfire/db.py).  Identifiers (content urls, user ids, tweet ids) are
   modelled as naturals, timestamps as minutes on a natural-number clock, and
   influence weights and scores as real numbers.  The Elasticsearch store is
   modelled as explicit lists of documents; store queries are embedded
   following the contract the code relies on: a filtered search returns the
   matching documents in index order (truncated to the requested size), a
   terms aggregation returns the distinct keys ordered by document count
   (ties by ascending key) with the requested sub-aggregations, and a
   multi-get returns the found documents in request order.  Python's
   exceptions (ZeroDivisionError from `1 / float(hours)`, IndexError from
   `xs[0]` on an empty list) are modelled with `Except`. -/

/-- A processed tweet document (doc type `tweet`): the fields `get_items`
reads are the tweeting user, the shared content url and the creation time. -/
structure Tweet where
  id : ℕ
  user_id : ℕ
  content_url : ℕ
  created : ℕ
deriving DecidableEq

/-- A content document (doc type `content`), indexed under its url
(`save_content` uses `id=content['url']`).  Only the url key is relevant
to the claims. -/
structure Content where
  url : ℕ
deriving DecidableEq

/-- A user document: id and scalar influence weight. -/
structure User where
  id : ℕ
  weight : ℝ

/-- Python exceptions that can escape the embedded functions. -/
inductive PyErr where
  | zeroDivision
  | indexError
deriving DecidableEq

/-- One line of `score_explanation`, as structured data instead of the
formatted string the code builds: a `citizen` line records the tweeter, their
weight, the influence delta and the running total; a `decay` line records the
elapsed hours, the decayed score, the displayed fraction of the original
score and the velocity. -/
inductive Explanation where
  | citizen (key : ℕ) (weight influence total : ℝ)
  | decay (hoursSince : ℕ) (finalScore relOrig vel : ℝ)

/-- The tweeter key of a `citizen` explanation line, if any. -/
def Explanation.keyOf : Explanation → Option ℕ
  | .citizen k _ _ _ => some k
  | .decay _ _ _ _ => none

/-- One bucket of the `content_url` terms aggregation in `get_items`: the
url key, its document count, the `tweeters` sub-aggregation (distinct user
ids) and the `first_tweets` sub-aggregation (earliest tweets by creation). -/
structure LinkAgg where
  key : ℕ
  doc_count : ℕ
  tweeters : List ℕ
  first_tweets : List Tweet
deriving DecidableEq

instance : Inhabited LinkAgg := ⟨⟨0, 0, [], []⟩⟩

/-- A candidate link after `score_link` ran on its bucket (the code mutates
the bucket dict, adding `score` and `score_explanation`). -/
structure ScoredLink where
  agg : LinkAgg
  score : ℝ
  expl : List Explanation

instance : Inhabited ScoredLink := ⟨⟨default, 0, []⟩⟩

/-- One element of the list `get_items` returns: the resolved content record
enriched with rank, score, explanation, time since first tweet, and the
earliest tweets. -/
structure TopLink where
  url : ℕ
  rank : ℕ
  score : ℝ
  expl : List Explanation
  first_tweeted : ℕ
  tweets : List Tweet

/-- Modelled from the spec: `get_since_now(ts, time_type='minute')` from the
repository's `bonfire.dates` module (which is not under src/) returns the
number of minutes elapsed from the given timestamp to now (§4.1 "Compute
minutes elapsed since the link's earliest contributing post"). -/
def get_since_now_minutes (nowM created : ℕ) : ℕ := nowM - created

/-- `user_weights.get(key, 0.0)`: the weight recorded for a tweeter, with
a default of 0 for tweeters absent from the weight map. -/
noncomputable def weightOf (uw : List (ℕ × ℝ)) (k : ℕ) : ℝ :=
  (uw.lookup k).getD 0

/-- `convert_weight_to_score = lambda weight: math.log(weight*10 + 1)`. -/
noncomputable def convert_weight_to_score (w : ℝ) : ℝ := Real.log (w * 10 + 1)

/-- The `for tweeter in link['tweeters']['buckets']` loop of `score_link`:
starting from the running total `s`, accumulate each tweeter's influence and
emit one explanation line per tweeter carrying the delta and running total. -/
noncomputable def citizen_fold (uw : List (ℕ × ℝ)) : List ℕ → ℝ → ℝ × List Explanation
  | [], s => (s, [])
  | k :: rest, s =>
    let w := weightOf uw k
    let infl := convert_weight_to_score w
    let srun := s + infl
    let r := citizen_fold uw rest srun
    (r.1, Explanation.citizen k w infl srun :: r.2)

/-- `for hour in range(hours_since): score *= DECAY_FACTOR` — the iterated
decay multiplication. -/
def decay_iter (factor : ℝ) : ℕ → ℝ → ℝ
  | 0, s => s
  | n + 1, s => decay_iter factor n (s * factor)

/-- `score_link(link, user_weights, time_decay, hours)` over a clock reading
`nowM`.  With decay enabled the code computes `1.0 - (1 / float(hours))`
first — a ZeroDivisionError when `hours` is 0 — then reads the first
`first_tweets` hit — an IndexError when there is none — then applies the
hourly decay loop and appends the decay explanation line (displaying
`score/orig_score if orig_score else score`). -/
noncomputable def score_link (link : LinkAgg) (uw : List (ℕ × ℝ))
    (time_decay : Bool) (hours nowM : ℕ) : Except PyErr (ℝ × List Explanation) :=
  let sl := citizen_fold uw link.tweeters 0
  if time_decay then
    if hours = 0 then .error .zeroDivision
    else
      match link.first_tweets with
      | [] => .error .indexError
      | t :: _ =>
        let DECAY_FACTOR : ℝ := 1 - 1 / (hours : ℝ)
        let minutes_since := get_since_now_minutes nowM t.created
        let hours_since := minutes_since / 60
        let orig_score := sl.1
        let vel := sl.1 / ((minutes_since : ℝ) + 1)
        let final := decay_iter DECAY_FACTOR hours_since sl.1
        let rel := if orig_score = 0 then final else final / orig_score
        .ok (final, sl.2 ++ [Explanation.decay hours_since final rel vel])
  else .ok sl

/-- Generic insertion of `a` into `l` before the first element `b` with
`r a b`; with a reflexive-on-ties `r` this reproduces the stability of
Python's Timsort. -/
def ordInsB (r : α → α → Bool) (a : α) : List α → List α
  | [] => [a]
  | b :: l => if r a b then a :: b :: l else b :: ordInsB r a l

/-- Generic stable sort by the boolean relation `r` (insertion sort). -/
def sortB (r : α → α → Bool) : List α → List α
  | [] => []
  | a :: l => ordInsB r a (sortB r l)

/-- `created ∈ [start, end]` range filter of the `recent_tweets`
aggregation. -/
def recent_tweets (tweets : List Tweet) (start endT : ℕ) : List Tweet :=
  tweets.filter (fun t => decide (start ≤ t.created ∧ t.created ≤ endT))

/-- Number of tweets in `tws` referencing the url `k` (the bucket's
`doc_count`). -/
def keyCount (tws : List Tweet) (k : ℕ) : ℕ :=
  (tws.filter (fun t => decide (t.content_url = k))).length

/-- Bucket order of the `content_url` terms aggregation: document count
descending, ties by ascending key. -/
def keyOrder (tws : List Tweet) (k1 k2 : ℕ) : Bool :=
  decide (keyCount tws k2 < keyCount tws k1 ∨
    (keyCount tws k1 = keyCount tws k2 ∧ k1 ≤ k2))

/-- Number of tweets in `tws` by user `u`. -/
def userCount (tws : List Tweet) (u : ℕ) : ℕ :=
  (tws.filter (fun t => decide (t.user_id = u))).length

/-- Bucket order of the `tweeters` sub-aggregation: document count
descending, ties by ascending user id. -/
def userOrder (tws : List Tweet) (u1 u2 : ℕ) : Bool :=
  decide (userCount tws u2 < userCount tws u1 ∨
    (userCount tws u1 = userCount tws u2 ∧ u1 ≤ u2))

/-- Sort key of the `first_tweets` top-hits sub-aggregation: `created`
ascending. -/
def createdOrder (a b : Tweet) : Bool := decide (a.created ≤ b.created)

/-- All tweets of one `content_url` bucket. -/
def bucketDocs (tws : List Tweet) (k : ℕ) : List Tweet :=
  tws.filter (fun t => decide (t.content_url = k))

/-- The `tweeters` sub-aggregation: distinct user ids of the bucket, in
bucket order, truncated to the requested `'size': 1000`. -/
def tweetersAgg (docs : List Tweet) : List ℕ :=
  (sortB (userOrder docs) (docs.map Tweet.user_id).dedup).take 1000

/-- The `first_tweets` top-hits sub-aggregation: the bucket's tweets by
ascending creation time, truncated to `'size': 3`. -/
def firstTweetsAgg (docs : List Tweet) : List Tweet :=
  (sortB createdOrder docs).take 3

/-- The `content_url` terms aggregation of `get_items`: distinct urls of the
window, keeping only buckets with `min_doc_count: 2`, ordered by `_count`
descending, truncated to the requested size, each carrying its
sub-aggregations. -/
def terms_agg (tws : List Tweet) (limit : ℕ) : List LinkAgg :=
  let keys := (tws.map Tweet.content_url).dedup.filter
    (fun k => decide (2 ≤ keyCount tws k))
  let keys := (sortB (keyOrder tws) keys).take limit
  keys.map (fun k =>
    { key := k, doc_count := keyCount tws k,
      tweeters := tweetersAgg (bucketDocs tws k),
      first_tweets := firstTweetsAgg (bucketDocs tws k) })

/-- `search_limit = quantity * 5 if time_decay else quantity * 2`. -/
def searchLimit (time_decay : Bool) (quantity : ℕ) : ℕ :=
  if time_decay then quantity * 5 else quantity * 2

/-- The second query of `get_items`: tweets referencing a candidate url with
`created ≤ start` (before taking the `size=1000` row limit). -/
def pre_window_hits (tweets : List Tweet) (keys : List ℕ) (start : ℕ) : List Tweet :=
  tweets.filter (fun t => decide (t.content_url ∈ keys ∧ t.created ≤ start))

/-- The urls the second query reports as already circulating before the
window: the first 1000 matching rows only (`size=1000`). -/
def pre_window_urls (tweets : List Tweet) (keys : List ℕ) (start : ℕ) : List ℕ :=
  ((pre_window_hits tweets keys start).take 1000).map Tweet.content_url

/-- Candidate selection of `get_items`: the windowed aggregation followed by
the pre-window exclusion (`links = filter(lambda link: link['key'] not in
outside_of_range, links)`); the early `return []` when the aggregation gives
no buckets is folded in as the empty result. -/
def candidate_links (tweets : List Tweet) (limit start endT : ℕ) : List LinkAgg :=
  let links := terms_agg (recent_tweets tweets start endT) limit
  if links.isEmpty then []
  else links.filter
    (fun l => decide (l.key ∉ pre_window_urls tweets (links.map LinkAgg.key) start))

/-- `get_user_weights`: multi-get the deduplicated tweeter ids and build the
id-to-weight map from the found users. -/
noncomputable def get_user_weights (users : List User) (ids : List ℕ) : List (ℕ × ℝ) :=
  ids.dedup.filterMap
    (fun i => (users.find? (fun u => decide (u.id = i))).map (fun u => (i, u.weight)))

/-- The Python for-loop over a list with a fallible body: stops at the first
exception. -/
def mapME (f : α → Except ε β) : List α → Except ε (List β)
  | [] => .ok []
  | a :: l =>
    match f a with
    | .error e => .error e
    | .ok b => (mapME f l).map (fun bs => b :: bs)

/-- The scoring loop of `get_items`: collect all tweeter ids, resolve their
weights in one batch, and run `score_link` over every remaining candidate. -/
noncomputable def score_candidates (links : List LinkAgg) (users : List User)
    (time_decay : Bool) (hours nowM : ℕ) : Except PyErr (List ScoredLink) :=
  let tweeter_ids := (links.map LinkAgg.tweeters).flatten
  let uw := get_user_weights users tweeter_ids
  mapME (fun l => (score_link l uw time_decay hours nowM).map
    (fun se => ⟨l, se.1, se.2⟩)) links

/-- The comparison `sorted(links, key=lambda link: link['score'],
reverse=True)` sorts by: `a` goes before `b` iff `b.score ≤ a.score`
(stable on ties). -/
noncomputable def scoreGE (a b : ScoredLink) : Bool :=
  @decide (b.score ≤ a.score) (Classical.propDecidable _)

/-- Python's stable descending sort by score. -/
noncomputable def pysort (l : List ScoredLink) : List ScoredLink :=
  sortB scoreGE l

/-- The score of the first candidate carrying the url `u` (the code's
`filter(lambda l: l['key'] == link['url'], links)[0]['score']`). -/
noncomputable def scoreOfKey (scored : List ScoredLink) (u : ℕ) : ℝ :=
  ((scored.filter (fun l => decide (l.agg.key = u))).headI).score

/-- Building one output record of `get_items` from the `index`-th resolved
content document: rank is `index + 1`; score, explanation and earliest
tweets come from the matching candidate (`IndexError` if none, or if it has
no first tweets). -/
noncomputable def emit_link (scored : List ScoredLink) (nowM : ℕ)
    (ic : ℕ × Content) : Except PyErr TopLink :=
  match scored.filter (fun l => decide (l.agg.key = ic.2.url)) with
  | [] => .error .indexError
  | m :: _ =>
    match m.agg.first_tweets with
    | [] => .error .indexError
    | t :: _ =>
      .ok { url := ic.2.url, rank := ic.1 + 1, score := m.score,
            expl := m.expl,
            first_tweeted := get_since_now_minutes nowM t.created,
            tweets := m.agg.first_tweets }

/-- The tail of `get_items`: stable-sort the scored candidates by descending
score, truncate to `quantity`, resolve the urls by multi-get (dropping
not-found urls), and enumerate the survivors into ranked output records. -/
noncomputable def rank_and_resolve (scored : List ScoredLink)
    (contents : List Content) (quantity nowM : ℕ) : Except PyErr (List TopLink) :=
  let sorted_links := (pysort scored).take quantity
  let top_urls := sorted_links.map (fun l => l.agg.key)
  let matching := top_urls.filterMap
    (fun u => contents.find? (fun c => decide (c.url = u)))
  mapME (emit_link scored nowM) matching.enum

/-- `get_items(universe, quantity, hours, start, end, time_decay)` over the
store (`tweets`, `users`, `contents`) and clock `nowM`, with the window
`[start, endT]` already resolved. -/
noncomputable def get_items (tweets : List Tweet) (users : List User)
    (contents : List Content) (quantity hours start endT : ℕ)
    (time_decay : Bool) (nowM : ℕ) : Except PyErr (List TopLink) :=
  let links := candidate_links tweets (searchLimit time_decay quantity) start endT
  if links.isEmpty then .ok []
  else
    match score_candidates links users time_decay hours nowM with
    | .error e => .error e
    | .ok scored => rank_and_resolve scored contents quantity nowM

/-- `get_top_link(universe, hours, quantity)`: run `get_items` over the
trailing `hours`-window (the window resolution `get_query_dates(None, None,
hours)` of the missing `bonfire.dates` module is modelled from the spec:
`[now - hours, now]`), catching only IndexError as "no candidates".  The
extended-stats reply for the bucket is modelled as `stats = some (avg,
std_deviation)`, or `none` when the average is undefined; `ledger` is the
set of urls already in the top-content index. -/
noncomputable def get_top_link (tweets : List Tweet) (users : List User)
    (contents : List Content) (ledger : List ℕ) (stats : Option (ℝ × ℝ))
    (hours quantity nowM : ℕ) : Except PyErr (Option TopLink) :=
  match get_items tweets users contents quantity hours (nowM - hours * 60) nowM
      true nowM with
  | .error .indexError => .ok none
  | .error e => .error e
  | .ok top_links =>
    match stats with
    | none => .ok none
    | some (avg, std) =>
      .ok (top_links.find? (fun l =>
        @decide (avg + 2 * std ≤ l.score ∧ l.url ∉ ledger)
          (Classical.propDecidable _)))

/-- A search-result document of `search_items`: either a content document or
a tweet document (`result._type`). -/
inductive SDoc where
  | content (c : Content)
  | tweet (t : Tweet)
deriving DecidableEq

/-- The `type` key of a merged record: direct content hits get no `type`
key (`plain`), a tweet folded with later content is reclassified `content`,
a tweet without content becomes a synthetic `tweet` record. -/
inductive MKind where
  | plain
  | contentK
  | tweetK
deriving DecidableEq

/-- One record emitted by `search_items`. -/
structure MergedItem where
  kind : MKind
  url : ℕ
  tweets : List Tweet
  rank : ℕ
  first_tweeted : Option ℕ
deriving DecidableEq

/-- Whether a search document is a content document with url `u`
(`'url' in r and r.url == result.content_url`). -/
def contentMatches (u : ℕ) (d : SDoc) : Bool :=
  match d with
  | .content c => decide (c.url = u)
  | .tweet _ => false

/-- The first content document with url `u`
(`filter(lambda r: 'url' in r and r.url == result.content_url, ...)[0]`). -/
def firstContent (u : ℕ) (l : List SDoc) : Option Content :=
  l.findSome? (fun d =>
    match d with
    | .content c => if c.url = u then some c else none
    | .tweet _ => none)

/-- The tweets among `rest` referencing url `u`
(`filter(lambda r: 'content_url' in r and r.content_url == result.url, ...)`). -/
def matchingTweets (u : ℕ) (rest : List SDoc) : List Tweet :=
  rest.filterMap (fun d =>
    match d with
    | .tweet t => if t.content_url = u then some t else none
    | .content _ => none)

/-- `rest` with the tweets referencing url `u` popped. -/
def withoutTweets (u : ℕ) (rest : List SDoc) : List SDoc :=
  rest.filter (fun d =>
    match d with
    | .tweet t => decide (t.content_url ≠ u)
    | .content _ => true)

/-- The `enumerate(res)` loop of `search_items`, over the not-yet-consumed
suffix: Python pops consumed documents (always at later positions) out of
the list it iterates, so the loop visits exactly the surviving documents,
and the running `index` is the emission position.  A content document
consumes all later tweets matching its url and nests them in scan order; a
tweet looks ahead for its content document, folding it in if found;
`first_tweeted` is computed from `result['tweets'][0]` — the first nested
tweet. -/
def merge_loop (nowM : ℕ) (rank : ℕ) : List SDoc → List MergedItem
  | [] => []
  | .content c :: rest =>
    let matching := matchingTweets c.url rest
    { kind := .plain, url := c.url, tweets := matching, rank := rank,
      first_tweeted :=
        match matching with
        | [] => none
        | t :: _ => some (get_since_now_minutes nowM t.created) } ::
      merge_loop nowM (rank + 1) (withoutTweets c.url rest)
  | .tweet t :: rest =>
    match firstContent t.content_url rest with
    | none =>
      { kind := .tweetK, url := t.content_url, tweets := [t], rank := rank,
        first_tweeted := some (get_since_now_minutes nowM t.created) } ::
        merge_loop nowM (rank + 1) rest
    | some c =>
      { kind := .contentK, url := c.url, tweets := [t], rank := rank,
        first_tweeted := some (get_since_now_minutes nowM t.created) } ::
        merge_loop nowM (rank + 1) (rest.eraseP (contentMatches t.content_url))
termination_by l => l.length
decreasing_by
  · exact Nat.lt_succ_of_le (List.length_filter_le _ _)
  · exact Nat.lt_succ_of_le (Nat.le_refl _)
  · exact Nat.lt_succ_of_le (List.eraseP_sublist _).length_le

/-- `search_items(universe, term, quantity)` after the combined search
returned the relevance-ordered documents `docs`: the reconciliation merge. -/
def search_items (docs : List SDoc) (nowM : ℕ) : List MergedItem :=
  merge_loop nowM 1 docs

/-- The outcome the store gives the version-checked delete of one raw tweet:
success, "not found" (another consumer already removed it, so later searches
no longer see it), or "version conflict" (the version changed between read
and delete).  This per-document schedule models the concurrent environment
of §5/§6: delete-by-id conditioned on a version token, distinguishing the
two failure modes. -/
inductive DelOutcome where
  | ok
  | notfound
  | conflict
deriving DecidableEq

/-- A raw (unprocessed) tweet document together with the environment's
response to this consumer's delete attempt. -/
structure RawTweet where
  id : ℕ
  outcome : DelOutcome
deriving DecidableEq

/-- The `must_not ids` filter of the dequeue search: visible raw tweets are
those whose id is not excluded. -/
def notExcluded (not_ids : List ℕ) (t : RawTweet) : Bool :=
  decide (t.id ∉ not_ids)

/-- `next_unprocessed_tweet(universe, not_ids)` with an explicit retry
budget `fuel`.  The search returns the first raw tweet whose id is not
excluded.  On NotFoundError the code recurses with the same `not_ids` — and
the document, being gone, is no longer visible to the next search; on
ConflictError it appends the id to `not_ids` and recurses.  The outer
`none` marks an exhausted budget (the claim is that a budget of one more
than the queue depth never exhausts). -/
def next_unprocessed_tweet_fuel : ℕ → List RawTweet → List ℕ → Option (Option RawTweet)
  | 0, _, _ => none
  | fuel + 1, store, not_ids =>
    match store.find? (notExcluded not_ids) with
    | none => some none
    | some t =>
      match t.outcome with
      | .ok => some (some t)
      | .notfound => next_unprocessed_tweet_fuel fuel (store.erase t) not_ids
      | .conflict => next_unprocessed_tweet_fuel fuel store (t.id :: not_ids)

/-- A store exhibiting the 1000-row cap of the pre-window exclusion query:
1000 old posts of url 1 fill the second query's result, so the single old
post of url 2 (row 1001) is never reported, and url 2 escapes exclusion. -/
def c3store : List Tweet :=
  List.replicate 1000 ⟨100, 9, 1, 500⟩ ++ ⟨101, 9, 2, 500⟩ ::
    ⟨1, 5, 1, 1500⟩ :: ⟨2, 6, 1, 1600⟩ :: ⟨3, 5, 2, 1500⟩ ::
    ⟨4, 6, 2, 1600⟩ :: []

/- ------------------------------------------------------------------ -/
/- Helper lemmas                                                       -/
/- ------------------------------------------------------------------ -/

theorem exists_ok_of_isOk {ε α : Type} {e : Except ε α} (h : e.isOk = true) :
    ∃ a, e = .ok a := by
  cases e with
  | error e => simp [Except.isOk, Except.toBool] at h
  | ok a => exact ⟨a, rfl⟩

theorem mapME_ok_forall2 {α β ε : Type} {f : α → Except ε β} :
    ∀ {l : List α} {out : List β}, mapME f l = .ok out →
      List.Forall₂ (fun a b => f a = .ok b) l out := by
  intro l
  induction l with
  | nil =>
    intro out h
    cases h
    exact List.Forall₂.nil
  | cons a l ih =>
    intro out h
    simp only [mapME] at h
    cases hf : f a with
    | error e => rw [hf] at h; cases h
    | ok b =>
      rw [hf] at h
      cases hm : mapME f l with
      | error e => rw [hm] at h; cases h
      | ok bs =>
        rw [hm] at h
        cases h
        exact List.Forall₂.cons hf (ih hm)

theorem mem_ordInsB {α : Type} {r : α → α → Bool} {a x : α} :
    ∀ {l : List α}, x ∈ ordInsB r a l ↔ x = a ∨ x ∈ l := by
  intro l
  induction l with
  | nil => simp [ordInsB]
  | cons b t ih =>
    cases hr : r a b with
    | true => simp [ordInsB, hr]
    | false =>
      have he : ordInsB r a (b :: t) = b :: ordInsB r a t := by
        simp [ordInsB, hr]
      rw [he]
      simp only [List.mem_cons, ih]
      tauto

theorem ordInsB_perm {α : Type} (r : α → α → Bool) (a : α) :
    ∀ (l : List α), (ordInsB r a l).Perm (a :: l) := by
  intro l
  induction l with
  | nil => exact List.Perm.refl _
  | cons b t ih =>
    cases hr : r a b with
    | true => simp [ordInsB, hr]
    | false =>
      have he : ordInsB r a (b :: t) = b :: ordInsB r a t := by
        simp [ordInsB, hr]
      rw [he]
      exact (ih.cons b).trans (List.Perm.swap a b t)

theorem sortB_perm {α : Type} (r : α → α → Bool) :
    ∀ (l : List α), (sortB r l).Perm l := by
  intro l
  induction l with
  | nil => exact List.Perm.refl _
  | cons a t ih => exact (ordInsB_perm r a (sortB r t)).trans (ih.cons a)

theorem pairwise_ordInsB {α : Type} {r : α → α → Bool}
    (htot : ∀ a b, r a b = true ∨ r b a = true)
    (htr : ∀ a b c, r a b = true → r b c = true → r a c = true) (a : α) :
    ∀ {l : List α}, l.Pairwise (fun x y => r x y = true) →
      (ordInsB r a l).Pairwise (fun x y => r x y = true) := by
  intro l
  induction l with
  | nil => intro _; simp [ordInsB]
  | cons b t ih =>
    intro hp
    rw [List.pairwise_cons] at hp
    cases hr : r a b with
    | true =>
      have he : ordInsB r a (b :: t) = a :: b :: t := by
        simp [ordInsB, hr]
      rw [he]
      refine List.Pairwise.cons ?_ (List.Pairwise.cons hp.1 hp.2)
      intro x hx
      rcases List.mem_cons.mp hx with h | h
      · rw [h]; exact hr
      · exact htr a b x hr (hp.1 x h)
    | false =>
      have he : ordInsB r a (b :: t) = b :: ordInsB r a t := by
        simp [ordInsB, hr]
      rw [he]
      refine List.Pairwise.cons ?_ (ih hp.2)
      intro x hx
      rcases mem_ordInsB.mp hx with h | h
      · rcases htot a b with h1 | h1
        · rw [hr] at h1; cases h1
        · rw [h]; exact h1
      · exact hp.1 x h

theorem sortB_pairwise {α : Type} {r : α → α → Bool}
    (htot : ∀ a b, r a b = true ∨ r b a = true)
    (htr : ∀ a b c, r a b = true → r b c = true → r a c = true) :
    ∀ (l : List α), (sortB r l).Pairwise (fun x y => r x y = true) := by
  intro l
  induction l with
  | nil => simp [sortB]
  | cons a t ih => exact pairwise_ordInsB htot htr a ih

theorem ordInsB_filter {α : Type} {r : α → α → Bool} {p : α → Bool}
    (hc : ∀ a b, p a = true → p b = true → r a b = true) (a : α) :
    ∀ (l : List α), (ordInsB r a l).filter p = (a :: l).filter p := by
  intro l
  induction l with
  | nil => rfl
  | cons b t ih =>
    cases hr : r a b with
    | true =>
      have he : ordInsB r a (b :: t) = a :: b :: t := by
        simp [ordInsB, hr]
      rw [he]
    | false =>
      have he : ordInsB r a (b :: t) = b :: ordInsB r a t := by
        simp [ordInsB, hr]
      rw [he]
      cases hpa : p a with
      | true =>
        have hpb : p b = false := by
          cases hpb : p b with
          | true =>
            have hcab := hc a b hpa hpb
            rw [hr] at hcab
            cases hcab
          | false => rfl
        have e1 : List.filter p (b :: ordInsB r a t) = List.filter p (ordInsB r a t) := by
          simp [List.filter_cons, hpb]
        have e2 : List.filter p (a :: b :: t) = a :: List.filter p t := by
          simp [List.filter_cons, hpa, hpb]
        have e3 : List.filter p (a :: t) = a :: List.filter p t := by
          simp [List.filter_cons, hpa]
        rw [e1, ih, e3, e2]
      | false =>
        have e1 : List.filter p (a :: b :: t) = List.filter p (b :: t) := by
          simp [List.filter_cons, hpa]
        have e2 : List.filter p (a :: t) = List.filter p t := by
          simp [List.filter_cons, hpa]
        rw [e1]
        simp only [List.filter_cons]
        rw [ih, e2]

theorem sortB_filter_stable {α : Type} {r : α → α → Bool} {p : α → Bool}
    (hc : ∀ a b, p a = true → p b = true → r a b = true) :
    ∀ (l : List α), (sortB r l).filter p = l.filter p := by
  intro l
  induction l with
  | nil => rfl
  | cons a t ih =>
    have h1 := ordInsB_filter hc a (sortB r t)
    simp only [sortB, h1, List.filter_cons]
    cases hpa : p a <;> simp [ih]

theorem filter_key_nil {α κ : Type} [DecidableEq κ] (f : α → κ) (v : κ) :
    ∀ (l : List α), v ∉ l.map f →
      l.filter (fun y => decide (f y = v)) = [] := by
  intro l hv
  rw [List.filter_eq_nil_iff]
  intro y hy
  simp only [decide_eq_true_eq]
  intro hfy
  exact hv (hfy ▸ List.mem_map_of_mem f hy)

theorem filter_key_singleton {α κ : Type} [DecidableEq κ] (f : α → κ) :
    ∀ (l : List α) (x : α), (l.map f).Nodup → x ∈ l →
      l.filter (fun y => decide (f y = f x)) = [x] := by
  intro l
  induction l with
  | nil => intro x _ hx; cases hx
  | cons a t ih =>
    intro x hnd hx
    rw [List.map_cons, List.nodup_cons] at hnd
    rcases List.mem_cons.mp hx with h | h
    · subst h
      rw [List.filter_cons, if_pos (by simp), filter_key_nil f (f x) t hnd.1]
    · have hne : f a ≠ f x := by
        intro he
        exact hnd.1 (he ▸ List.mem_map_of_mem f h)
      rw [List.filter_cons, if_neg (by simp [hne])]
      exact ih x hnd.2 h

theorem filter_sublist_of_imp {α : Type} {p q : α → Bool} :
    ∀ (l : List α), (∀ x ∈ l, q x = true → p x = true) →
      List.Sublist (l.filter q) (l.filter p) := by
  intro l
  induction l with
  | nil => intro _; simp
  | cons a t ih =>
    intro h
    have ht := ih (fun x hx => h x (List.mem_cons_of_mem a hx))
    simp only [List.filter_cons]
    by_cases hq : q a = true
    · have hpa : p a = true := h a (List.mem_cons_self a t) hq
      rw [if_pos hq, if_pos hpa]
      exact ht.cons₂ a
    · rw [if_neg hq]
      by_cases hpa : p a = true
      · rw [if_pos hpa]
        exact ht.cons a
      · rw [if_neg hpa]
        exact ht

theorem length_filter_lt_of_witness {α : Type} (p q : α → Bool) {l : List α}
    (himp : ∀ x ∈ l, q x = true → p x = true) {t : α} (ht : t ∈ l)
    (hpt : p t = true) (hqt : q t = false) :
    (l.filter q).length < (l.filter p).length := by
  obtain ⟨s, u, rfl⟩ := List.append_of_mem ht
  have hs : ∀ x ∈ s, q x = true → p x = true := by
    intro x hx
    exact himp x (List.mem_append_left _ hx)
  have hu : ∀ x ∈ u, q x = true → p x = true := by
    intro x hx
    exact himp x (List.mem_append_right _ (List.mem_cons_of_mem t hx))
  have h1 := (filter_sublist_of_imp s hs).length_le
  have h2 := (filter_sublist_of_imp u hu).length_le
  have e1 : List.filter q (s ++ t :: u) = List.filter q s ++ List.filter q u := by
    simp [List.filter_append, List.filter_cons, hqt]
  have e2 : List.filter p (s ++ t :: u) = List.filter p s ++ t :: List.filter p u := by
    simp [List.filter_append, List.filter_cons, hpt]
  rw [e1, e2]
  simp only [List.length_append, List.length_cons]
  omega

theorem filter_erase_lt {α : Type} [DecidableEq α] {p : α → Bool} :
    ∀ (l : List α) (t : α), t ∈ l → p t = true →
      ((l.erase t).filter p).length < (l.filter p).length := by
  intro l
  induction l with
  | nil => intro t ht; cases ht
  | cons a rest ih =>
    intro t ht hpt
    by_cases hat : a = t
    · subst hat
      rw [List.erase_cons_head]
      have e1 : List.filter p (a :: rest) = a :: List.filter p rest := by
        simp [List.filter_cons, hpt]
      rw [e1]
      exact Nat.lt_succ_of_le (Nat.le_refl _)
    · have hbeq : (a == t) = false := by
        simp [hat]
      rw [List.erase_cons, hbeq]
      have htr : t ∈ rest := by
        rcases List.mem_cons.mp ht with h | h
        · exact absurd h.symm hat
        · exact h
      rw [if_neg Bool.false_ne_true]
      have hrec := ih t htr hpt
      cases hpa : p a with
      | true =>
        have e1 : List.filter p (a :: List.erase rest t) = a :: List.filter p (List.erase rest t) := by
          simp [List.filter_cons, hpa]
        have e2 : List.filter p (a :: rest) = a :: List.filter p rest := by
          simp [List.filter_cons, hpa]
        rw [e1, e2]
        exact Nat.succ_lt_succ hrec
      | false =>
        have e1 : List.filter p (a :: List.erase rest t) = List.filter p (List.erase rest t) := by
          simp [List.filter_cons, hpa]
        have e2 : List.filter p (a :: rest) = List.filter p rest := by
          simp [List.filter_cons, hpa]
        rw [e1, e2]
        exact hrec


/- ------------------------------------------------------------------ -/
/- Score model lemmas                                                  -/
/- ------------------------------------------------------------------ -/

theorem citizen_fold_fst (uw : List (ℕ × ℝ)) :
    ∀ (ks : List ℕ) (s : ℝ), (citizen_fold uw ks s).1 =
      s + (ks.map (fun k => convert_weight_to_score (weightOf uw k))).sum := by
  intro ks
  induction ks with
  | nil => intro s; simp [citizen_fold]
  | cons k rest ih =>
    intro s
    simp only [citizen_fold, List.map_cons, List.sum_cons]
    rw [ih]
    ring

theorem citizen_fold_keys (uw : List (ℕ × ℝ)) :
    ∀ (ks : List ℕ) (s : ℝ),
      ((citizen_fold uw ks s).2).filterMap Explanation.keyOf = ks := by
  intro ks
  induction ks with
  | nil => intro s; rfl
  | cons k rest ih =>
    intro s
    simp only [citizen_fold, List.filterMap_cons, Explanation.keyOf]
    rw [ih]

theorem citizen_fold_len (uw : List (ℕ × ℝ)) :
    ∀ (ks : List ℕ) (s : ℝ),
      ((citizen_fold uw ks s).2).length = ks.length := by
  intro ks
  induction ks with
  | nil => intro s; rfl
  | cons k rest ih =>
    intro s
    simp only [citizen_fold, List.length_cons]
    rw [ih]

theorem decay_iter_eq_pow (f : ℝ) :
    ∀ (n : ℕ) (s : ℝ), decay_iter f n s = s * f ^ n := by
  intro n
  induction n with
  | zero => intro s; simp [decay_iter]
  | succ n ih =>
    intro s
    rw [decay_iter, ih]
    ring

/- ------------------------------------------------------------------ -/
/- Claim theorems                                                      -/
/- ------------------------------------------------------------------ -/

/-- C6 counterexample: with decay enabled and `hours = 0`, `score_link` does
not skip the decay step with factor 1 — it raises ZeroDivisionError from
`1 / float(hours)` (here: one contributor of some weight, first tweet right
now). -/
theorem c6_counterexample :
    score_link ⟨1, 2, [5], [⟨9, 5, 1, 100⟩]⟩ [] true 0 100 =
      .error .zeroDivision := rfl

/-- C6 (amended): with decay enabled and `windowHours = 0`, `score_link`
raises ZeroDivisionError for every link, weight map and clock — the code
has no `windowHours ≥ 1` guard and no factor-1 no-op branch. -/
theorem c6_decay_zero_hours_raises (link : LinkAgg) (uw : List (ℕ × ℝ))
    (nowM : ℕ) : score_link link uw true 0 nowM = .error .zeroDivision := rfl

/-- C5 counterexample: with zero contributing authors and decay enabled the
decay step is not skipped: the result still has score 0 but carries one
decay explanation line, so it is not `(0, [])`. -/
theorem c5_counterexample :
    score_link ⟨1, 2, [], [⟨9, 5, 1, 100⟩]⟩ [] true 24 100 ≠ .ok (0, []) := by
  intro h
  have h2 : (score_link ⟨1, 2, [], [⟨9, 5, 1, 100⟩]⟩ [] true 24 100).map
      (fun p => p.2.length) = .ok 1 := rfl
  rw [h] at h2
  simp [Except.map] at h2

/-- C5 (amended): with zero contributing authors, `score_link` returns
score 0 with an empty explanation when decay is disabled; with decay
enabled (and `windowHours ≥ 1`, a nonempty `first_tweets`) it still runs
the decay step, returning score 0 with exactly one decay explanation
line. -/
theorem c5_zero_contributors (link : LinkAgg) (uw : List (ℕ × ℝ))
    (hours nowM : ℕ) (hz : link.tweeters = []) :
    score_link link uw false hours nowM = .ok (0, [])
    ∧ (1 ≤ hours → ∀ t rest, link.first_tweets = t :: rest →
        ∃ r v, score_link link uw true hours nowM =
          .ok (0, [Explanation.decay ((nowM - t.created) / 60) 0 r v])) := by
  constructor
  · simp [score_link, hz, citizen_fold]
  · intro h1 t rest hft
    have h0 : ¬(hours = 0) := by omega
    refine ⟨0, 0, ?_⟩
    simp [score_link, hz, citizen_fold, hft, h0, get_since_now_minutes,
      decay_iter_eq_pow]

/-- C5 witness: the amended statement at a concrete link with no
contributing authors. -/
theorem c5_witness :
    ((⟨1, 2, [], [⟨9, 5, 1, 100⟩]⟩ : LinkAgg).tweeters = [] ∧ (1 : ℕ) ≤ 24
      ∧ (⟨1, 2, [], [⟨9, 5, 1, 100⟩]⟩ : LinkAgg).first_tweets =
          ⟨9, 5, 1, 100⟩ :: [])
    ∧ (score_link ⟨1, 2, [], [⟨9, 5, 1, 100⟩]⟩ [] false 24 160 = .ok (0, [])
        ∧ (1 ≤ 24 → ∀ t rest,
            (⟨1, 2, [], [⟨9, 5, 1, 100⟩]⟩ : LinkAgg).first_tweets = t :: rest →
            ∃ r v, score_link ⟨1, 2, [], [⟨9, 5, 1, 100⟩]⟩ [] true 24 160 =
              .ok (0, [Explanation.decay ((160 - t.created) / 60) 0 r v]))) :=
  ⟨⟨rfl, by omega, rfl⟩, c5_zero_contributors _ [] 24 160 rfl⟩

theorem score_link_decay_eq (link : LinkAgg) (uw : List (ℕ × ℝ))
    (hours nowM : ℕ) (h0 : ¬(hours = 0)) (t : Tweet) (rest : List Tweet)
    (hft : link.first_tweets = t :: rest) :
    score_link link uw true hours nowM =
      .ok (decay_iter (1 - 1 / (hours : ℝ)) ((nowM - t.created) / 60)
            (citizen_fold uw link.tweeters 0).1,
        (citizen_fold uw link.tweeters 0).2 ++
          [Explanation.decay ((nowM - t.created) / 60)
            (decay_iter (1 - 1 / (hours : ℝ)) ((nowM - t.created) / 60)
              (citizen_fold uw link.tweeters 0).1)
            (if (citizen_fold uw link.tweeters 0).1 = 0 then
                decay_iter (1 - 1 / (hours : ℝ)) ((nowM - t.created) / 60)
                  (citizen_fold uw link.tweeters 0).1
              else
                decay_iter (1 - 1 / (hours : ℝ)) ((nowM - t.created) / 60)
                  (citizen_fold uw link.tweeters 0).1 /
                  (citizen_fold uw link.tweeters 0).1)
            ((citizen_fold uw link.tweeters 0).1 /
              (((nowM - t.created : ℕ) : ℝ) + 1))]) := by
  simp [score_link, hft, h0, get_since_now_minutes]

/-- C1: for a link with at least one contributing author (distinct bucket
keys), `score_link` returns the sum over the tweeter buckets of
`ln(weight*10 + 1)` — weight 0 for authors missing from the weight map —
with one citizen explanation line per author; with decay enabled
(`windowHours ≥ 1`, a first tweet present) the iterated hourly
multiplication equals the power `(1 - 1/windowHours)^(minutesElapsed/60)`
of that sum, with one extra decay line; and the head of the `first_tweets`
sub-aggregation is the bucket's earliest tweet. -/
theorem c1_score_link_formula (link : LinkAgg) (uw : List (ℕ × ℝ))
    (hours nowM : ℕ) (hne : link.tweeters ≠ []) (hnd : link.tweeters.Nodup) :
    (∃ lines, score_link link uw false hours nowM =
        .ok ((link.tweeters.map
            (fun k => convert_weight_to_score (weightOf uw k))).sum, lines)
      ∧ lines.filterMap Explanation.keyOf = link.tweeters
      ∧ lines.length = link.tweeters.length)
    ∧ (1 ≤ hours → ∀ t rest, link.first_tweets = t :: rest →
        ∃ lines dfin drel dvel,
          score_link link uw true hours nowM =
            .ok ((link.tweeters.map
                (fun k => convert_weight_to_score (weightOf uw k))).sum
                  * (1 - 1 / (hours : ℝ)) ^ ((nowM - t.created) / 60),
              lines ++ [Explanation.decay ((nowM - t.created) / 60) dfin drel dvel])
          ∧ lines.filterMap Explanation.keyOf = link.tweeters
          ∧ lines.length = link.tweeters.length)
    ∧ (∀ docs : List Tweet, ∀ u ∈ docs, ∀ f frest,
        firstTweetsAgg docs = f :: frest → f.created ≤ u.created) := by
  have hsum := citizen_fold_fst uw link.tweeters 0
  rw [zero_add] at hsum
  refine ⟨?_, ?_, ?_⟩
  · refine ⟨(citizen_fold uw link.tweeters 0).2, ?_, ?_, ?_⟩
    · show Except.ok (citizen_fold uw link.tweeters 0) = _
      rw [← hsum]
    · exact citizen_fold_keys uw link.tweeters 0
    · exact citizen_fold_len uw link.tweeters 0
  · intro h1 t rest hft
    have h0 : ¬(hours = 0) := by omega
    refine ⟨(citizen_fold uw link.tweeters 0).2,
      decay_iter (1 - 1 / (hours : ℝ)) ((nowM - t.created) / 60)
        (citizen_fold uw link.tweeters 0).1,
      (if (citizen_fold uw link.tweeters 0).1 = 0 then
          decay_iter (1 - 1 / (hours : ℝ)) ((nowM - t.created) / 60)
            (citizen_fold uw link.tweeters 0).1
        else
          decay_iter (1 - 1 / (hours : ℝ)) ((nowM - t.created) / 60)
            (citizen_fold uw link.tweeters 0).1 /
            (citizen_fold uw link.tweeters 0).1),
      ((citizen_fold uw link.tweeters 0).1 /
        (((nowM - t.created : ℕ) : ℝ) + 1)), ?_, ?_, ?_⟩
    · rw [score_link_decay_eq link uw hours nowM h0 t rest hft,
        decay_iter_eq_pow, hsum]
    · exact citizen_fold_keys uw link.tweeters 0
    · exact citizen_fold_len uw link.tweeters 0
  · intro docs u hu f frest hf
    have hsp := sortB_pairwise (r := createdOrder)
      (fun a b => by
        simp only [createdOrder, decide_eq_true_eq]
        exact (Nat.le_total a.created b.created).imp id id)
      (fun a b c hab hbc => by
        simp only [createdOrder, decide_eq_true_eq] at hab hbc ⊢
        exact Nat.le_trans hab hbc) docs
    have hperm := sortB_perm createdOrder docs
    have hmem : u ∈ sortB createdOrder docs := hperm.symm.subset hu
    cases hs : sortB createdOrder docs with
    | nil => rw [hs] at hmem; cases hmem
    | cons f0 l0 =>
      have hf0 : f = f0 := by
        have : firstTweetsAgg docs = f0 :: l0.take 2 := by
          simp [firstTweetsAgg, hs]
        rw [this] at hf
        exact ((List.cons.injEq _ _ _ _ ▸ hf).1).symm
      rw [hs] at hsp hmem
      rw [List.pairwise_cons] at hsp
      rcases List.mem_cons.mp hmem with h | h
      · rw [hf0, h]
      · have := hsp.1 u h
        simp only [createdOrder, decide_eq_true_eq] at this
        rw [hf0]
        exact this

/-- C1 witness: the formula at a concrete link with one contributing
author. -/
theorem c1_witness :
    ((⟨1, 2, [5], [⟨9, 5, 1, 100⟩]⟩ : LinkAgg).tweeters ≠ []
      ∧ (⟨1, 2, [5], [⟨9, 5, 1, 100⟩]⟩ : LinkAgg).tweeters.Nodup)
    ∧ ((∃ lines, score_link ⟨1, 2, [5], [⟨9, 5, 1, 100⟩]⟩ [] false 24 160 =
        .ok (((⟨1, 2, [5], [⟨9, 5, 1, 100⟩]⟩ : LinkAgg).tweeters.map
            (fun k => convert_weight_to_score (weightOf [] k))).sum, lines)
      ∧ lines.filterMap Explanation.keyOf =
          (⟨1, 2, [5], [⟨9, 5, 1, 100⟩]⟩ : LinkAgg).tweeters
      ∧ lines.length = (⟨1, 2, [5], [⟨9, 5, 1, 100⟩]⟩ : LinkAgg).tweeters.length)
    ∧ (1 ≤ 24 → ∀ t rest,
        (⟨1, 2, [5], [⟨9, 5, 1, 100⟩]⟩ : LinkAgg).first_tweets = t :: rest →
        ∃ lines dfin drel dvel,
          score_link ⟨1, 2, [5], [⟨9, 5, 1, 100⟩]⟩ [] true 24 160 =
            .ok (((⟨1, 2, [5], [⟨9, 5, 1, 100⟩]⟩ : LinkAgg).tweeters.map
                (fun k => convert_weight_to_score (weightOf [] k))).sum
                  * (1 - 1 / ((24 : ℕ) : ℝ)) ^ ((160 - t.created) / 60),
              lines ++ [Explanation.decay ((160 - t.created) / 60) dfin drel dvel])
          ∧ lines.filterMap Explanation.keyOf =
              (⟨1, 2, [5], [⟨9, 5, 1, 100⟩]⟩ : LinkAgg).tweeters
          ∧ lines.length =
              (⟨1, 2, [5], [⟨9, 5, 1, 100⟩]⟩ : LinkAgg).tweeters.length)
    ∧ (∀ docs : List Tweet, ∀ u ∈ docs, ∀ f frest,
        firstTweetsAgg docs = f :: frest → f.created ≤ u.created)) :=
  ⟨⟨by decide, by decide⟩,
    c1_score_link_formula ⟨1, 2, [5], [⟨9, 5, 1, 100⟩]⟩ [] 24 160
      (by decide) (by decide)⟩

theorem notExcluded_imp {t : ℕ} {not_ids : List ℕ} :
    ∀ x : RawTweet, notExcluded (t :: not_ids) x = true →
      notExcluded not_ids x = true := by
  intro x hx
  simp only [notExcluded, decide_eq_true_eq] at hx ⊢
  intro hmem
  exact hx (List.mem_cons_of_mem _ hmem)

theorem next_unprocessed_total :
    ∀ (fuel : ℕ) (store : List RawTweet) (not_ids : List ℕ),
      (store.filter (notExcluded not_ids)).length < fuel →
      ∃ r, next_unprocessed_tweet_fuel fuel store not_ids = some r := by
  intro fuel
  induction fuel with
  | zero =>
    intro store not_ids h
    omega
  | succ fuel ih =>
    intro store not_ids h
    cases hf : store.find? (notExcluded not_ids) with
    | none => exact ⟨none, by simp [next_unprocessed_tweet_fuel, hf]⟩
    | some t =>
      have htmem : t ∈ store := List.mem_of_find?_eq_some hf
      have htp : notExcluded not_ids t = true := List.find?_some hf
      cases ho : t.outcome with
      | ok =>
        exact ⟨some t, by simp [next_unprocessed_tweet_fuel, hf, ho]⟩
      | notfound =>
        have hlt := filter_erase_lt store t htmem htp
        have hm : ((store.erase t).filter (notExcluded not_ids)).length
            < fuel := by omega
        obtain ⟨r, hr⟩ := ih (store.erase t) not_ids hm
        exact ⟨r, by simp [next_unprocessed_tweet_fuel, hf, ho, hr]⟩
      | conflict =>
        have hqt : notExcluded (t.id :: not_ids) t = false := by
          simp [notExcluded]
        have hlt := length_filter_lt_of_witness (notExcluded not_ids)
          (notExcluded (t.id :: not_ids))
          (fun x _ => notExcluded_imp x) htmem htp hqt
        have hm : (store.filter (notExcluded (t.id :: not_ids))).length
            < fuel := by omega
        obtain ⟨r, hr⟩ := ih store (t.id :: not_ids) hm
        exact ⟨r, by simp [next_unprocessed_tweet_fuel, hf, ho, hr]⟩

/-- C9: for every finite store of raw tweets (each tagged with the store's
response to this consumer's delete attempt) and every exclusion set, the
dequeue loop needs at most `store.length + 1` attempts to return a raw
tweet or none — it never exhausts that retry budget — and a version
conflict, which adds the conflicting id to the exclusion set, strictly
shrinks the visible candidate set. -/
theorem c9_dequeue_terminates (store : List RawTweet) (not_ids : List ℕ) :
    (∃ r, next_unprocessed_tweet_fuel (store.length + 1) store not_ids = some r)
    ∧ ∀ t ∈ store, t.id ∉ not_ids →
        (store.filter (notExcluded (t.id :: not_ids))).length <
          (store.filter (notExcluded not_ids)).length := by
  constructor
  · refine next_unprocessed_total (store.length + 1) store not_ids ?_
    have := List.length_filter_le (notExcluded not_ids) store
    omega
  · intro t ht hid
    refine length_filter_lt_of_witness (notExcluded not_ids)
      (notExcluded (t.id :: not_ids)) (fun x _ => notExcluded_imp x) ht
      (by simp [notExcluded, hid]) (by simp [notExcluded])

/-- C9 witness: the bound and the conflict-shrink at a concrete store with
one in-flight raw tweet whose delete attempt conflicts. -/
theorem c9_witness :
    (∃ r, next_unprocessed_tweet_fuel 2 [⟨1, .conflict⟩] [] = some r)
    ∧ ((⟨1, .conflict⟩ : RawTweet) ∈ [(⟨1, .conflict⟩ : RawTweet)]
        ∧ (1 : ℕ) ∉ ([] : List ℕ)
        ∧ (([(⟨1, .conflict⟩ : RawTweet)].filter
            (notExcluded [1])).length <
          ([(⟨1, .conflict⟩ : RawTweet)].filter
            (notExcluded [])).length)) :=
  ⟨(c9_dequeue_terminates [⟨1, .conflict⟩] []).1,
    by decide, by decide,
    (c9_dequeue_terminates [⟨1, .conflict⟩] []).2 ⟨1, .conflict⟩
      (by decide) (by decide)⟩

theorem citizen_fold_congr (uw1 uw2 : List (ℕ × ℝ)) :
    ∀ (ks : List ℕ) (s : ℝ), (∀ k ∈ ks, weightOf uw1 k = weightOf uw2 k) →
      citizen_fold uw1 ks s = citizen_fold uw2 ks s := by
  intro ks
  induction ks with
  | nil => intro s _; rfl
  | cons k rest ih =>
    intro s hw
    have hk : weightOf uw1 k = weightOf uw2 k :=
      hw k (List.mem_cons_self k rest)
    simp only [citizen_fold, hk]
    rw [ih _ (fun x hx => hw x (List.mem_cons_of_mem k hx))]

theorem score_link_weight_irrelevant (link : LinkAgg) (a : ℕ) (w : ℝ)
    (uw : List (ℕ × ℝ)) (time_decay : Bool) (hours nowM : ℕ)
    (ha : a ∉ link.tweeters) :
    score_link link ((a, w) :: uw) time_decay hours nowM =
      score_link link uw time_decay hours nowM := by
  have hcf : citizen_fold ((a, w) :: uw) link.tweeters 0 =
      citizen_fold uw link.tweeters 0 := by
    refine citizen_fold_congr _ _ link.tweeters 0 ?_
    intro k hk
    have hne : (k == a) = false := by
      simp only [beq_eq_false_iff_ne, ne_eq]
      intro he
      exact ha (he ▸ hk)
    simp [weightOf, List.lookup, hne]
  simp only [score_link, hcf]

/-- C10: every bucket the `get_items` aggregation produces carries at most
1000 distinct tweeter ids, and the weight of any author outside that
retrieved set never influences `score_link`'s result on the bucket — shares
by authors beyond the top 1000 are silently ignored in scoring. -/
theorem c10_tweeters_truncation (tws : List Tweet) (limit : ℕ) (b : LinkAgg)
    (hb : b ∈ terms_agg tws limit) :
    b.tweeters.length ≤ 1000
    ∧ ∀ a, a ∉ b.tweeters → ∀ (w : ℝ) (uw : List (ℕ × ℝ)) (td : Bool)
        (hours nowM : ℕ),
        score_link b ((a, w) :: uw) td hours nowM =
          score_link b uw td hours nowM := by
  constructor
  · simp only [terms_agg, List.mem_map] at hb
    obtain ⟨k, _, hk⟩ := hb
    rw [← hk]
    simp only [tweetersAgg]
    exact List.length_take_le _ _
  · intro a ha w uw td hours nowM
    exact score_link_weight_irrelevant b a w uw td hours nowM ha

/-- C10 witness: the truncation bound and weight-irrelevance at a concrete
two-tweet aggregation and an author outside the bucket. -/
theorem c10_witness :
    ((⟨3, 2, [5, 6], [⟨1, 5, 3, 1500⟩, ⟨2, 6, 3, 1600⟩]⟩ : LinkAgg) ∈
        terms_agg [⟨1, 5, 3, 1500⟩, ⟨2, 6, 3, 1600⟩] 10)
    ∧ ((⟨3, 2, [5, 6], [⟨1, 5, 3, 1500⟩, ⟨2, 6, 3, 1600⟩]⟩ : LinkAgg).tweeters.length ≤ 1000
      ∧ ∀ a, a ∉ (⟨3, 2, [5, 6], [⟨1, 5, 3, 1500⟩, ⟨2, 6, 3, 1600⟩]⟩ : LinkAgg).tweeters →
          ∀ (w : ℝ) (uw : List (ℕ × ℝ)) (td : Bool) (hours nowM : ℕ),
          score_link ⟨3, 2, [5, 6], [⟨1, 5, 3, 1500⟩, ⟨2, 6, 3, 1600⟩]⟩
              ((a, w) :: uw) td hours nowM =
            score_link ⟨3, 2, [5, 6], [⟨1, 5, 3, 1500⟩, ⟨2, 6, 3, 1600⟩]⟩
              uw td hours nowM) :=
  ⟨by decide,
    c10_tweeters_truncation [⟨1, 5, 3, 1500⟩, ⟨2, 6, 3, 1600⟩] 10
      ⟨3, 2, [5, 6], [⟨1, 5, 3, 1500⟩, ⟨2, 6, 3, 1600⟩]⟩ (by decide)⟩

theorem merge_loop_first_tweeted :
    ∀ (n : ℕ) (docs : List SDoc), docs.length ≤ n →
      ∀ (nowM rank : ℕ), ∀ item ∈ merge_loop nowM rank docs,
        (∀ t ts, item.tweets = t :: ts →
          item.first_tweeted = some (get_since_now_minutes nowM t.created))
        ∧ (item.tweets = [] → item.first_tweeted = none) := by
  intro n
  induction n with
  | zero =>
    intro docs hd nowM rank item hmem
    have hnil : docs = [] := List.length_eq_zero.mp (Nat.le_zero.mp hd)
    subst hnil
    simp [merge_loop] at hmem
  | succ n ih =>
    intro docs hd nowM rank item hmem
    cases docs with
    | nil => simp [merge_loop] at hmem
    | cons d rest =>
      have hrest : rest.length ≤ n := by
        simp only [List.length_cons] at hd
        omega
      cases d with
      | content c =>
        rw [merge_loop] at hmem
        rcases List.mem_cons.mp hmem with h | h
        · subst h
          constructor
          · intro t ts hts
            have hM : matchingTweets c.url rest = t :: ts := hts
            show (match matchingTweets c.url rest with
              | [] => none
              | t :: _ => some (get_since_now_minutes nowM t.created)) = _
            rw [hM]
          · intro hnil
            have hM : matchingTweets c.url rest = [] := hnil
            show (match matchingTweets c.url rest with
              | [] => none
              | t :: _ => some (get_since_now_minutes nowM t.created)) = _
            rw [hM]
        · have hw : (withoutTweets c.url rest).length ≤ n :=
            Nat.le_trans (List.length_filter_le _ _) hrest
          exact ih (withoutTweets c.url rest) hw nowM (rank + 1) item h
      | tweet t =>
        rw [merge_loop] at hmem
        cases hfc : firstContent t.content_url rest with
        | none =>
          rw [hfc] at hmem
          rcases List.mem_cons.mp hmem with h | h
          · subst h
            refine ⟨?_, ?_⟩
            · intro x xs hx
              have hx2 : x = t := (List.cons.injEq _ _ _ _ ▸ hx).1.symm
              rw [hx2]
            · intro hx
              cases hx
          · exact ih rest hrest nowM (rank + 1) item h
        | some c2 =>
          rw [hfc] at hmem
          rcases List.mem_cons.mp hmem with h | h
          · subst h
            refine ⟨?_, ?_⟩
            · intro x xs hx
              have hx2 : x = t := (List.cons.injEq _ _ _ _ ▸ hx).1.symm
              rw [hx2]
            · intro hx
              cases hx
          · have hw : (rest.eraseP (contentMatches t.content_url)).length ≤ n :=
              Nat.le_trans (List.eraseP_sublist _).length_le hrest
            exact ih _ hw nowM (rank + 1) item h

/-- C8 (amended): every record emitted by `search_items` that carries one or
more nested posts receives its "first shared" relative time from the first
nested post in nesting (scan) order — `result['tweets'][0]` — not from the
post with the earliest creation time; a record with no nested posts gets
none. -/
theorem c8_first_tweeted_from_head (docs : List SDoc) (nowM : ℕ) :
    ∀ item ∈ search_items docs nowM,
      (∀ t ts, item.tweets = t :: ts →
        item.first_tweeted = some (get_since_now_minutes nowM t.created))
      ∧ (item.tweets = [] → item.first_tweeted = none) :=
  fun item hmem =>
    merge_loop_first_tweeted docs.length docs (Nat.le_refl _) nowM 1 item hmem

/-- C8 witness: the amended statement at a concrete merge of one content
document and one matching tweet. -/
theorem c8_witness :
    ((⟨.plain, 1, [⟨10, 5, 1, 100⟩], 1, some 100⟩ : MergedItem) ∈
        search_items [.content ⟨1⟩, .tweet ⟨10, 5, 1, 100⟩] 200)
    ∧ ((∀ t ts, (⟨.plain, 1, [⟨10, 5, 1, 100⟩], 1, some 100⟩ : MergedItem).tweets
            = t :: ts →
        (⟨.plain, 1, [⟨10, 5, 1, 100⟩], 1, some 100⟩ : MergedItem).first_tweeted
          = some (get_since_now_minutes 200 t.created))
      ∧ ((⟨.plain, 1, [⟨10, 5, 1, 100⟩], 1, some 100⟩ : MergedItem).tweets = []
          → (⟨.plain, 1, [⟨10, 5, 1, 100⟩], 1, some 100⟩ : MergedItem).first_tweeted
            = none)) :=
  ⟨by simp [search_items, merge_loop, matchingTweets, withoutTweets,
      get_since_now_minutes],
    c8_first_tweeted_from_head [.content ⟨1⟩, .tweet ⟨10, 5, 1, 100⟩] 200
      ⟨.plain, 1, [⟨10, 5, 1, 100⟩], 1, some 100⟩
      (by simp [search_items, merge_loop, matchingTweets, withoutTweets,
        get_since_now_minutes])⟩

/-- C8 counterexample: a content document whose two matching tweets arrive
in relevance order later-created-first.  The emitted record's "first shared"
time comes from the first nested tweet (created at 100), not from the
earliest nested post (created at 50), contradicting the claim. -/
theorem c8_counterexample :
    (search_items [.content ⟨1⟩, .tweet ⟨10, 5, 1, 100⟩, .tweet ⟨11, 6, 1, 50⟩]
        200).map MergedItem.first_tweeted = [some (get_since_now_minutes 200 100)]
    ∧ (search_items [.content ⟨1⟩, .tweet ⟨10, 5, 1, 100⟩, .tweet ⟨11, 6, 1, 50⟩]
        200).map MergedItem.tweets = [[⟨10, 5, 1, 100⟩, ⟨11, 6, 1, 50⟩]]
    ∧ get_since_now_minutes 200 100 ≠ get_since_now_minutes 200 50 := by
  refine ⟨?_, ?_, by decide⟩ <;>
    simp [search_items, merge_loop, matchingTweets, withoutTweets,
      get_since_now_minutes]

/-- C4 counterexample: one author sharing the same link twice within the
window makes a bucket with 2 documents but a single distinct contributing
author — `min_doc_count: 2` counts posts, not authors — and the link
appears in the `get_items` output. -/
theorem c4_counterexample :
    Except.map (List.map TopLink.url)
        (get_items [⟨1, 7, 3, 1500⟩, ⟨2, 7, 3, 1600⟩] [] [⟨3⟩]
          20 24 1000 2000 true 2000) = Except.ok [3]
    ∧ (((recent_tweets [⟨1, 7, 3, 1500⟩, ⟨2, 7, 3, 1600⟩] 1000 2000).filter
          (fun t => decide (t.content_url = 3))).map Tweet.user_id).dedup.length
        = 1 := by
  exact ⟨rfl, by decide⟩

/-- C3 counterexample: url 2 was shared at creation time 500 — at or before
the window start 1000 — by the post at row 1001 of the pre-window query,
beyond the query's 1000-row cap; url 2 is therefore not excluded and
appears in the `get_items` output for the window. -/
theorem c3_counterexample :
    Except.map (List.map TopLink.url)
        (get_items c3store [] [⟨2⟩] 20 24 1000 2000 true 2000) = Except.ok [2]
    ∧ (⟨101, 9, 2, 500⟩ : Tweet) ∈ c3store
    ∧ (⟨101, 9, 2, 500⟩ : Tweet).content_url = 2
    ∧ (⟨101, 9, 2, 500⟩ : Tweet).created ≤ 1000 := by
  exact ⟨rfl, by decide, rfl, by decide⟩

theorem forall2_map_eq {α β : Type} {R : α → β → Prop} {f : β → α}
    (hf : ∀ a b, R a b → f b = a) :
    ∀ {l : List α} {m : List β}, List.Forall₂ R l m → m.map f = l := by
  intro l m h
  induction h with
  | nil => rfl
  | cons hab htail ih => simp [List.map_cons, hf _ _ hab, ih]

theorem score_candidates_aggs {links : List LinkAgg} {users : List User}
    {td : Bool} {hours nowM : ℕ} {scored : List ScoredLink}
    (h : score_candidates links users td hours nowM = .ok scored) :
    scored.map ScoredLink.agg = links := by
  simp only [score_candidates] at h
  have h2 := mapME_ok_forall2 h
  refine forall2_map_eq ?_ h2
  intro a b hab
  cases hsl : score_link a (get_user_weights users
      (links.map LinkAgg.tweeters).flatten) td hours nowM with
  | error e => rw [hsl] at hab; cases hab
  | ok p =>
    rw [hsl] at hab
    cases hab
    rfl

theorem terms_agg_keys_eq (tws : List Tweet) (limit : ℕ) :
    (terms_agg tws limit).map LinkAgg.key =
      (sortB (keyOrder tws)
        ((tws.map Tweet.content_url).dedup.filter
          (fun k => decide (2 ≤ keyCount tws k)))).take limit := by
  simp only [terms_agg, List.map_map]
  exact List.map_id _

theorem terms_agg_keys_nodup (tws : List Tweet) (limit : ℕ) :
    ((terms_agg tws limit).map LinkAgg.key).Nodup := by
  rw [terms_agg_keys_eq]
  refine List.Nodup.sublist (List.take_sublist _ _) ?_
  exact ((sortB_perm (keyOrder tws) _).nodup_iff).mpr
    (List.Nodup.filter _ (List.nodup_dedup _))

theorem candidate_links_sublist (tweets : List Tweet) (limit start endT : ℕ) :
    List.Sublist (candidate_links tweets limit start endT)
      (terms_agg (recent_tweets tweets start endT) limit) := by
  simp only [candidate_links]
  by_cases he : (terms_agg (recent_tweets tweets start endT) limit).isEmpty = true
  · rw [if_pos he]
    exact List.nil_sublist _
  · rw [if_neg he]
    exact List.filter_sublist _

theorem candidate_keys_nodup (tweets : List Tweet) (limit start endT : ℕ) :
    ((candidate_links tweets limit start endT).map LinkAgg.key).Nodup :=
  List.Nodup.sublist ((candidate_links_sublist tweets limit start endT).map _)
    (terms_agg_keys_nodup _ _)

theorem mem_terms_agg_min_doc {tws : List Tweet} {limit : ℕ} {b : LinkAgg}
    (hb : b ∈ terms_agg tws limit) : 2 ≤ keyCount tws b.key := by
  simp only [terms_agg, List.mem_map] at hb
  obtain ⟨k, hk, hkb⟩ := hb
  have hk2 : k ∈ (tws.map Tweet.content_url).dedup.filter
      (fun k => decide (2 ≤ keyCount tws k)) :=
    (sortB_perm _ _).subset (List.mem_of_mem_take hk)
  have := (List.mem_filter.mp hk2).2
  simp only [decide_eq_true_eq] at this
  rw [← hkb]
  exact this

theorem scoreOfKey_eq {scored : List ScoredLink}
    (hnd : (scored.map (fun l => l.agg.key)).Nodup) {l : ScoredLink}
    (hl : l ∈ scored) : scoreOfKey scored l.agg.key = l.score := by
  have h := filter_key_singleton (fun x : ScoredLink => x.agg.key) scored l hnd hl
  simp only [scoreOfKey, h, List.headI]

theorem emit_ok_fields {scored : List ScoredLink} {nowM : ℕ}
    {ic : ℕ × Content} {t : TopLink}
    (h : emit_link scored nowM ic = .ok t) :
    t.url = ic.2.url ∧ t.rank = ic.1 + 1 ∧ t.score = scoreOfKey scored ic.2.url
    ∧ ∃ m ∈ scored, m.agg.key = ic.2.url ∧ t.score = m.score := by
  cases hfl : scored.filter (fun l => decide (l.agg.key = ic.2.url)) with
  | nil =>
    simp only [emit_link, hfl] at h
    exact Except.noConfusion h
  | cons m rest =>
    simp only [emit_link, hfl] at h
    cases hft : m.agg.first_tweets with
    | nil =>
      simp only [hft] at h
      exact Except.noConfusion h
    | cons t0 ts =>
      simp only [hft] at h
      cases h
      have hmm : m ∈ scored.filter (fun l => decide (l.agg.key = ic.2.url)) := by
        rw [hfl]
        exact List.mem_cons_self _ _
      have hm1 : m ∈ scored := (List.mem_filter.mp hmm).1
      have hm2 : m.agg.key = ic.2.url := by
        have := (List.mem_filter.mp hmm).2
        simpa using this
      refine ⟨rfl, rfl, ?_, m, hm1, hm2, rfl⟩
      simp only [scoreOfKey, hfl, List.headI]

theorem emit_ranks {scored : List ScoredLink} {nowM : ℕ} :
    ∀ (ms : List Content) (k : ℕ) (out : List TopLink),
      mapME (emit_link scored nowM) (ms.enumFrom k) = .ok out →
      out.map TopLink.rank = List.range' (k + 1) out.length := by
  intro ms
  induction ms with
  | nil =>
    intro k out h
    cases h
    rfl
  | cons c ms ih =>
    intro k out h
    simp only [List.enumFrom, mapME] at h
    cases hem : emit_link scored nowM (k, c) with
    | error e => rw [hem] at h; cases h
    | ok t =>
      rw [hem] at h
      cases hm : mapME (emit_link scored nowM) (ms.enumFrom (k + 1)) with
      | error e => rw [hm] at h; cases h
      | ok out2 =>
        rw [hm] at h
        cases h
        have hrank : t.rank = k + 1 := (emit_ok_fields hem).2.1
        have ih2 := ih (k + 1) out2 hm
        simp only [List.map_cons, List.length_cons, hrank, ih2]
        rw [List.range'_succ]

theorem emit_pairs {scored : List ScoredLink} {nowM : ℕ} :
    ∀ (ms : List (ℕ × Content)) (out : List TopLink),
      mapME (emit_link scored nowM) ms = .ok out →
      out.map (fun t => (t.url, t.score)) =
        ms.map (fun ic => (ic.2.url, scoreOfKey scored ic.2.url)) := by
  intro ms
  induction ms with
  | nil =>
    intro out h
    cases h
    rfl
  | cons ic ms ih =>
    intro out h
    simp only [mapME] at h
    cases hem : emit_link scored nowM ic with
    | error e => rw [hem] at h; cases h
    | ok t =>
      rw [hem] at h
      cases hm : mapME (emit_link scored nowM) ms with
      | error e => rw [hm] at h; cases h
      | ok out2 =>
        rw [hm] at h
        cases h
        obtain ⟨hurl, _, hscore, _⟩ := emit_ok_fields hem
        simp only [List.map_cons, hurl, hscore, ih out2 hm]

theorem filterMap_find_urls (contents : List Content) :
    ∀ (us : List ℕ),
      List.Sublist ((us.filterMap
        (fun u => contents.find? (fun c => decide (c.url = u)))).map Content.url)
        us := by
  intro us
  induction us with
  | nil => simp
  | cons u t ih =>
    simp only [List.filterMap_cons]
    cases hfind : contents.find? (fun c => decide (c.url = u)) with
    | none => exact ih.cons u
    | some c =>
      have hc : c.url = u := by
        have := List.find?_some hfind
        simpa using this
      simp only [List.map_cons, hc]
      exact ih.cons₂ u

theorem mapME_ok_length {α β ε : Type} {f : α → Except ε β} {l : List α}
    {out : List β} (h : mapME f l = .ok out) : out.length = l.length :=
  ((mapME_ok_forall2 h).length_eq).symm

theorem single_sublist_map {α β : Type} {f : α → β} {q : β} {l : List α}
    (h : List.Sublist [q] (l.map f)) : ∃ y, y ∈ l ∧ f y = q := by
  have hq : q ∈ l.map f := h.subset (List.mem_singleton_self q)
  obtain ⟨y, hy, hfy⟩ := List.mem_map.mp hq
  exact ⟨y, hy, hfy⟩

theorem pair_sublist_map {α β : Type} {f : α → β} {p q : β} :
    ∀ {l : List α}, List.Sublist [p, q] (l.map f) →
      ∃ x y, List.Sublist [x, y] l ∧ f x = p ∧ f y = q := by
  intro l
  induction l with
  | nil =>
    intro h
    simp at h
  | cons a t ih =>
    intro h
    simp only [List.map_cons] at h
    cases h with
    | cons _ h2 =>
      obtain ⟨x, y, hxy, hfx, hfy⟩ := ih h2
      exact ⟨x, y, hxy.cons a, hfx, hfy⟩
    | cons₂ _ h2 =>
      obtain ⟨y, hy, hfy⟩ := single_sublist_map h2
      exact ⟨a, y, (List.singleton_sublist.mpr hy).cons₂ a, rfl, hfy⟩

theorem rel_of_pairwise_sublist {α : Type} (R : α → α → Prop) :
    ∀ {l : List α} {x y : α}, List.Sublist [x, y] l → l.Pairwise R → R x y := by
  intro l
  induction l with
  | nil =>
    intro x y h
    simp at h
  | cons a t ih =>
    intro x y h hp
    rw [List.pairwise_cons] at hp
    cases h with
    | cons _ h2 => exact ih h2 hp.2
    | cons₂ _ h2 =>
      exact hp.1 y (List.singleton_sublist.mp h2)

theorem scoreGE_trans (a b c : ScoredLink) (hab : scoreGE a b = true)
    (hbc : scoreGE b c = true) : scoreGE a c = true := by
  simp only [scoreGE, decide_eq_true_eq] at hab hbc ⊢
  exact le_trans hbc hab

theorem scoreGE_total (a b : ScoredLink) :
    scoreGE a b = true ∨ scoreGE b a = true := by
  simp only [scoreGE, decide_eq_true_eq]
  exact (le_total b.score a.score).imp id id

theorem pysort_pairwise (l : List ScoredLink) :
    (pysort l).Pairwise (fun a b => b.score ≤ a.score) := by
  have h := sortB_pairwise scoreGE_total scoreGE_trans l
  refine List.Pairwise.imp ?_ h
  intro a b hab
  simpa [scoreGE] using hab

theorem pysort_stable (c : ℝ) (l : List ScoredLink) :
    (pysort l).filter (fun x => decide (x.score = c)) =
      l.filter (fun x => decide (x.score = c)) := by
  refine sortB_filter_stable ?_ l
  intro a b ha hb
  simp only [decide_eq_true_eq] at ha hb
  exact decide_eq_true (le_of_eq (hb.trans ha.symm))

theorem rank_and_resolve_spec {scored : List ScoredLink}
    {contents : List Content} {quantity nowM : ℕ} {out : List TopLink}
    (hnd : (scored.map (fun l => l.agg.key)).Nodup)
    (h : rank_and_resolve scored contents quantity nowM = .ok out) :
    out.length ≤ quantity
    ∧ out.map TopLink.rank = List.range' 1 out.length
    ∧ List.Sublist (out.map (fun t => (t.url, t.score)))
        (((pysort scored).take quantity).map (fun l => (l.agg.key, l.score))) := by
  simp only [rank_and_resolve] at h
  refine ⟨?_, ?_, ?_⟩
  · have h1 := mapME_ok_length h
    rw [List.enum_length] at h1
    have h2 := List.length_filterMap_le
      (fun u => contents.find? (fun c => decide (c.url = u)))
      (((pysort scored).take quantity).map (fun l => l.agg.key))
    rw [List.length_map] at h2
    have h3 := List.length_take_le quantity (pysort scored)
    omega
  · have h2 : mapME (emit_link scored nowM)
        (List.enumFrom 0 ((((pysort scored).take quantity).map
          (fun l => l.agg.key)).filterMap
            (fun u => contents.find? (fun c => decide (c.url = u))))) = .ok out := h
    exact emit_ranks _ 0 out h2
  · have hpairs := emit_pairs _ out h
    have henum : ((((pysort scored).take quantity).map
        (fun l => l.agg.key)).filterMap
          (fun u => contents.find? (fun c => decide (c.url = u)))).enum.map
        (fun ic : ℕ × Content => (ic.2.url, scoreOfKey scored ic.2.url)) =
        ((((pysort scored).take quantity).map
          (fun l => l.agg.key)).filterMap
            (fun u => contents.find? (fun c => decide (c.url = u)))).map
          (fun c => (c.url, scoreOfKey scored c.url)) := by
      rw [show (fun ic : ℕ × Content => (ic.2.url, scoreOfKey scored ic.2.url))
          = (fun c : Content => (c.url, scoreOfKey scored c.url)) ∘ Prod.snd
          from rfl]
      rw [← List.map_map, List.enum_map_snd]
    rw [henum] at hpairs
    have hurls := filterMap_find_urls contents
      (((pysort scored).take quantity).map (fun l => l.agg.key))
    have hsub1 : List.Sublist (out.map (fun t => (t.url, t.score)))
        ((((pysort scored).take quantity).map (fun l => l.agg.key)).map
          (fun u => (u, scoreOfKey scored u))) := by
      rw [hpairs]
      rw [show (fun c : Content => (c.url, scoreOfKey scored c.url))
          = (fun u : ℕ => (u, scoreOfKey scored u)) ∘ Content.url from rfl]
      rw [← List.map_map]
      exact hurls.map _
    rw [List.map_map] at hsub1
    have hcongr : ((pysort scored).take quantity).map
        ((fun u : ℕ => (u, scoreOfKey scored u)) ∘ (fun l => l.agg.key)) =
        ((pysort scored).take quantity).map (fun l => (l.agg.key, l.score)) := by
      refine List.map_congr_left ?_
      intro l hl
      have hl2 : l ∈ scored :=
        (sortB_perm scoreGE scored).subset (List.mem_of_mem_take hl)
      simp only [Function.comp]
      rw [scoreOfKey_eq hnd hl2]
    rw [hcongr] at hsub1
    exact hsub1

/-- C2: whenever `get_items` returns a list, it holds at most `quantity`
links; the rank fields are exactly the contiguous sequence 1..N with no
repeats; the list is sorted by descending score; and any two returned links
with equal scores appear in the order their urls had among the aggregation
buckets (stable tie-breaking). -/
theorem c2_get_items_sorted_ranked (tweets : List Tweet) (users : List User)
    (contents : List Content) (quantity hours start endT : ℕ)
    (time_decay : Bool) (nowM : ℕ) (out : List TopLink)
    (h : get_items tweets users contents quantity hours start endT time_decay
      nowM = .ok out) :
    out.length ≤ quantity
    ∧ out.map TopLink.rank = List.range' 1 out.length
    ∧ (∀ a b, List.Sublist [a, b] out →
        b.score ≤ a.score
        ∧ (a.score = b.score → List.Sublist [a.url, b.url]
            ((terms_agg (recent_tweets tweets start endT)
              (searchLimit time_decay quantity)).map LinkAgg.key))) := by
  simp only [get_items] at h
  by_cases he : (candidate_links tweets (searchLimit time_decay quantity)
      start endT).isEmpty = true
  · rw [if_pos he] at h
    cases h
    refine ⟨Nat.zero_le _, rfl, ?_⟩
    intro a b hab
    simp at hab
  · rw [if_neg he] at h
    cases hsc : score_candidates
        (candidate_links tweets (searchLimit time_decay quantity) start endT)
        users time_decay hours nowM with
    | error e =>
      rw [hsc] at h
      exact Except.noConfusion h
    | ok scored =>
      rw [hsc] at h
      have haggs := score_candidates_aggs hsc
      have hkeys : scored.map (fun l => l.agg.key) =
          (candidate_links tweets (searchLimit time_decay quantity)
            start endT).map LinkAgg.key := by
        rw [show (fun l : ScoredLink => l.agg.key)
            = LinkAgg.key ∘ ScoredLink.agg from rfl]
        rw [← List.map_map, haggs]
      have hnd : (scored.map (fun l => l.agg.key)).Nodup := by
        rw [hkeys]
        exact candidate_keys_nodup tweets _ start endT
      obtain ⟨hlen, hranks, hpairs⟩ := rank_and_resolve_spec hnd h
      refine ⟨hlen, hranks, ?_⟩
      intro a b hab
      have hmap : List.Sublist [(a.url, a.score), (b.url, b.score)]
          (out.map (fun t => (t.url, t.score))) := by
        have := hab.map (fun t => (t.url, t.score))
        simpa using this
      have hsp := hmap.trans hpairs
      obtain ⟨x, y, hxy, hfx, hfy⟩ := pair_sublist_map hsp
      have hxu : x.agg.key = a.url := (Prod.mk.injEq _ _ _ _ ▸ hfx).1
      have hxs : x.score = a.score := (Prod.mk.injEq _ _ _ _ ▸ hfx).2
      have hyu : y.agg.key = b.url := (Prod.mk.injEq _ _ _ _ ▸ hfy).1
      have hys : y.score = b.score := (Prod.mk.injEq _ _ _ _ ▸ hfy).2
      have hpw : ((pysort scored).take quantity).Pairwise
          (fun a b => b.score ≤ a.score) :=
        List.Pairwise.sublist (List.take_sublist _ _) (pysort_pairwise scored)
      have hrel : y.score ≤ x.score :=
        rel_of_pairwise_sublist (fun a b : ScoredLink => b.score ≤ a.score)
          hxy hpw
      refine ⟨by rw [← hxs, ← hys]; exact hrel, ?_⟩
      intro heq
      have hx1 : List.Sublist [x, y] (pysort scored) :=
        hxy.trans (List.take_sublist _ _)
      have hpx : (fun z : ScoredLink => decide (z.score = x.score)) x = true :=
        decide_eq_true rfl
      have hpy : (fun z : ScoredLink => decide (z.score = x.score)) y = true :=
        decide_eq_true (by rw [hys, ← heq, ← hxs])
      have hfilter : List.Sublist [x, y]
          ((pysort scored).filter (fun z => decide (z.score = x.score))) := by
        have h2 := hx1.filter (fun z : ScoredLink => decide (z.score = x.score))
        have h3 : [x, y].filter (fun z : ScoredLink => decide (z.score = x.score))
            = [x, y] := by
          simp only [List.filter_cons, hpx, hpy, if_pos rfl]
          rfl
        rw [h3] at h2
        exact h2
      rw [pysort_stable] at hfilter
      have hscored : List.Sublist [x, y] scored :=
        hfilter.trans (List.filter_sublist _)
      have hkeysub : List.Sublist [x.agg.key, y.agg.key]
          (scored.map (fun l => l.agg.key)) := by
        have := hscored.map (fun l : ScoredLink => l.agg.key)
        simpa using this
      rw [hkeys] at hkeysub
      have hterms : List.Sublist
          ((candidate_links tweets (searchLimit time_decay quantity)
            start endT).map LinkAgg.key)
          ((terms_agg (recent_tweets tweets start endT)
            (searchLimit time_decay quantity)).map LinkAgg.key) :=
        (candidate_links_sublist tweets _ start endT).map _
      rw [← hxu, ← hyu]
      exact hkeysub.trans hterms

/-- C2 witness: the statement at a concrete store with one candidate link
(two posts by distinct authors), resolved content and no decay. -/
theorem c2_witness :
    ∃ out, get_items [⟨1, 5, 3, 1500⟩, ⟨2, 6, 3, 1600⟩] [] [⟨3⟩]
        20 24 1000 2000 false 2000 = .ok out
      ∧ (out.length ≤ 20
        ∧ out.map TopLink.rank = List.range' 1 out.length
        ∧ (∀ a b, List.Sublist [a, b] out →
            b.score ≤ a.score
            ∧ (a.score = b.score → List.Sublist [a.url, b.url]
                ((terms_agg (recent_tweets [⟨1, 5, 3, 1500⟩, ⟨2, 6, 3, 1600⟩]
                  1000 2000) (searchLimit false 20)).map LinkAgg.key)))) := by
  have hok : (get_items [⟨1, 5, 3, 1500⟩, ⟨2, 6, 3, 1600⟩] [] [⟨3⟩]
      20 24 1000 2000 false 2000).isOk = true := rfl
  obtain ⟨out, hout⟩ := exists_ok_of_isOk hok
  exact ⟨out, hout, c2_get_items_sorted_ranked _ _ _ _ _ _ _ _ _ out hout⟩

theorem get_items_url_mem {tweets : List Tweet} {users : List User}
    {contents : List Content} {quantity hours start endT : ℕ} {td : Bool}
    {nowM : ℕ} {out : List TopLink}
    (h : get_items tweets users contents quantity hours start endT td nowM
      = .ok out) :
    ∀ l ∈ out, l.url ∈ (candidate_links tweets (searchLimit td quantity)
      start endT).map LinkAgg.key := by
  simp only [get_items] at h
  by_cases he : (candidate_links tweets (searchLimit td quantity)
      start endT).isEmpty = true
  · rw [if_pos he] at h
    cases h
    intro l hl
    cases hl
  · rw [if_neg he] at h
    cases hsc : score_candidates
        (candidate_links tweets (searchLimit td quantity) start endT)
        users td hours nowM with
    | error e =>
      rw [hsc] at h
      exact Except.noConfusion h
    | ok scored =>
      rw [hsc] at h
      have haggs := score_candidates_aggs hsc
      have hkeys : scored.map (fun l => l.agg.key) =
          (candidate_links tweets (searchLimit td quantity)
            start endT).map LinkAgg.key := by
        rw [show (fun l : ScoredLink => l.agg.key)
            = LinkAgg.key ∘ ScoredLink.agg from rfl]
        rw [← List.map_map, haggs]
      have hnd : (scored.map (fun l => l.agg.key)).Nodup := by
        rw [hkeys]
        exact candidate_keys_nodup tweets _ start endT
      obtain ⟨_, _, hpairs⟩ := rank_and_resolve_spec hnd h
      intro l hl
      have hm1 : (l.url, l.score) ∈ out.map (fun t => (t.url, t.score)) :=
        List.mem_map_of_mem _ hl
      have hm2 := hpairs.subset hm1
      obtain ⟨x, hx, hxe⟩ := List.mem_map.mp hm2
      have hxu : x.agg.key = l.url := (Prod.mk.injEq _ _ _ _ ▸ hxe).1
      have hxs : x ∈ scored :=
        (sortB_perm scoreGE scored).subset (List.mem_of_mem_take hx)
      have hmem : x.agg.key ∈ scored.map (fun l => l.agg.key) :=
        List.mem_map_of_mem _ hxs
      rw [hxu, hkeys] at hmem
      exact hmem

/-- C4 (amended): every link `get_items` returns has at least 2 contributing
posts within the window — the aggregation's `min_doc_count: 2` bounds the
number of posts, not the number of distinct contributing authors (a single
author posting the same link twice passes it). -/
theorem c4_min_two_posts (tweets : List Tweet) (users : List User)
    (contents : List Content) (quantity hours start endT : ℕ) (td : Bool)
    (nowM : ℕ) (out : List TopLink)
    (h : get_items tweets users contents quantity hours start endT td nowM
      = .ok out) :
    ∀ l ∈ out, 2 ≤ keyCount (recent_tweets tweets start endT) l.url := by
  intro l hl
  have hm := get_items_url_mem h l hl
  obtain ⟨cl, hcl, hcle⟩ := List.mem_map.mp hm
  have hterms : cl ∈ terms_agg (recent_tweets tweets start endT)
      (searchLimit td quantity) :=
    (candidate_links_sublist tweets _ start endT).subset hcl
  have := mem_terms_agg_min_doc hterms
  rw [← hcle]
  exact this

/-- C4 witness: the amended statement at the concrete two-posts-one-author
store. -/
theorem c4_witness :
    ∃ out, get_items [⟨1, 7, 3, 1500⟩, ⟨2, 7, 3, 1600⟩] [] [⟨3⟩]
        20 24 1000 2000 true 2000 = .ok out
      ∧ ∀ l ∈ out, 2 ≤ keyCount
          (recent_tweets [⟨1, 7, 3, 1500⟩, ⟨2, 7, 3, 1600⟩] 1000 2000)
          l.url := by
  have hok : (get_items [⟨1, 7, 3, 1500⟩, ⟨2, 7, 3, 1600⟩] [] [⟨3⟩]
      20 24 1000 2000 true 2000).isOk = true := rfl
  obtain ⟨out, hout⟩ := exists_ok_of_isOk hok
  exact ⟨out, hout, c4_min_two_posts _ _ _ _ _ _ _ _ _ out hout⟩

/-- C3 (amended): the pre-window exclusion is complete only up to the second
query's 1000-row cap: whenever the posts referencing candidate urls at or
before `windowStart` fit within 1000 rows, no link shared at or before
`windowStart` appears in the output; and an emptied candidate set yields an
empty result.  (Beyond the cap the invariant can fail — see the
counterexample.) -/
theorem c3_exclusion_within_cap (tweets : List Tweet) (users : List User)
    (contents : List Content) (quantity hours start endT : ℕ) (td : Bool)
    (nowM : ℕ) (out : List TopLink)
    (h : get_items tweets users contents quantity hours start endT td nowM
      = .ok out)
    (hcap : (pre_window_hits tweets
        ((terms_agg (recent_tweets tweets start endT)
          (searchLimit td quantity)).map LinkAgg.key) start).length ≤ 1000) :
    (∀ t ∈ tweets, t.created ≤ start → t.content_url ∉ out.map TopLink.url)
    ∧ (candidate_links tweets (searchLimit td quantity) start endT = [] →
        get_items tweets users contents quantity hours start endT td nowM
          = .ok []) := by
  constructor
  · intro t ht hts hmem
    obtain ⟨l, hl, hle⟩ := List.mem_map.mp hmem
    have hm := get_items_url_mem h l hl
    obtain ⟨cl, hcl, hcle⟩ := List.mem_map.mp hm
    simp only [candidate_links] at hcl
    by_cases he : (terms_agg (recent_tweets tweets start endT)
        (searchLimit td quantity)).isEmpty = true
    · rw [if_pos he] at hcl
      cases hcl
    · rw [if_neg he] at hcl
      have hcl2 := List.mem_filter.mp hcl
      have hnotin : cl.key ∉ pre_window_urls tweets
          ((terms_agg (recent_tweets tweets start endT)
            (searchLimit td quantity)).map LinkAgg.key) start := by
        have := hcl2.2
        simpa using this
      have hkey : cl.key = t.content_url := by
        rw [hcle, hle]
      have hkeymem : cl.key ∈ (terms_agg (recent_tweets tweets start endT)
          (searchLimit td quantity)).map LinkAgg.key :=
        List.mem_map_of_mem _ hcl2.1
      have htmem : t ∈ pre_window_hits tweets
          ((terms_agg (recent_tweets tweets start endT)
            (searchLimit td quantity)).map LinkAgg.key) start := by
        simp only [pre_window_hits, List.mem_filter]
        refine ⟨ht, decide_eq_true ⟨?_, hts⟩⟩
        rw [← hkey]
        exact hkeymem
      have hurl : cl.key ∈ pre_window_urls tweets
          ((terms_agg (recent_tweets tweets start endT)
            (searchLimit td quantity)).map LinkAgg.key) start := by
        simp only [pre_window_urls]
        rw [List.take_of_length_le hcap, hkey]
        exact List.mem_map_of_mem _ htmem
      exact hnotin hurl
  · intro hcl
    simp [get_items, hcl]

/-- C3 witness: the amended statement at a concrete store where a link
(url 4) was also shared before the window and the pre-window query's rows
fit its cap: url 4 never appears. -/
theorem c3_witness :
    ∃ out, get_items [⟨1, 5, 3, 1500⟩, ⟨2, 6, 3, 1600⟩, ⟨3, 5, 4, 1500⟩,
        ⟨4, 6, 4, 1600⟩, ⟨5, 9, 4, 500⟩] [] [⟨3⟩, ⟨4⟩]
        20 24 1000 2000 true 2000 = .ok out
      ∧ (pre_window_hits [⟨1, 5, 3, 1500⟩, ⟨2, 6, 3, 1600⟩, ⟨3, 5, 4, 1500⟩,
          ⟨4, 6, 4, 1600⟩, ⟨5, 9, 4, 500⟩]
          ((terms_agg (recent_tweets [⟨1, 5, 3, 1500⟩, ⟨2, 6, 3, 1600⟩,
            ⟨3, 5, 4, 1500⟩, ⟨4, 6, 4, 1600⟩, ⟨5, 9, 4, 500⟩] 1000 2000)
            (searchLimit true 20)).map LinkAgg.key) 1000).length ≤ 1000
      ∧ ((∀ t ∈ [(⟨1, 5, 3, 1500⟩ : Tweet), ⟨2, 6, 3, 1600⟩, ⟨3, 5, 4, 1500⟩,
            ⟨4, 6, 4, 1600⟩, ⟨5, 9, 4, 500⟩], t.created ≤ 1000 →
            t.content_url ∉ out.map TopLink.url)
        ∧ (candidate_links [⟨1, 5, 3, 1500⟩, ⟨2, 6, 3, 1600⟩, ⟨3, 5, 4, 1500⟩,
            ⟨4, 6, 4, 1600⟩, ⟨5, 9, 4, 500⟩] (searchLimit true 20) 1000 2000
              = [] →
            get_items [⟨1, 5, 3, 1500⟩, ⟨2, 6, 3, 1600⟩, ⟨3, 5, 4, 1500⟩,
              ⟨4, 6, 4, 1600⟩, ⟨5, 9, 4, 500⟩] [] [⟨3⟩, ⟨4⟩]
              20 24 1000 2000 true 2000 = .ok [])) := by
  have hok : (get_items [⟨1, 5, 3, 1500⟩, ⟨2, 6, 3, 1600⟩, ⟨3, 5, 4, 1500⟩,
      ⟨4, 6, 4, 1600⟩, ⟨5, 9, 4, 500⟩] [] [⟨3⟩, ⟨4⟩]
      20 24 1000 2000 true 2000).isOk = true := rfl
  obtain ⟨out, hout⟩ := exists_ok_of_isOk hok
  exact ⟨out, hout, by decide,
    c3_exclusion_within_cap _ _ _ _ _ _ _ _ _ out hout (by decide)⟩

theorem find?_first {α : Type} {p : α → Bool} :
    ∀ {l : List α} {a : α}, l.find? p = some a →
      ∃ s t, l = s ++ a :: t ∧ p a = true ∧ ∀ x ∈ s, p x = false := by
  intro l
  induction l with
  | nil =>
    intro a h
    simp at h
  | cons b l ih =>
    intro a h
    cases hpb : p b with
    | true =>
      rw [List.find?_cons_of_pos _ hpb] at h
      cases h
      exact ⟨[], l, rfl, hpb, by intro x hx; cases hx⟩
    | false =>
      rw [List.find?_cons_of_neg _ (by simp [hpb])] at h
      obtain ⟨s, t, hst, hpa, hs⟩ := ih h
      refine ⟨b :: s, t, by rw [hst]; rfl, hpa, ?_⟩
      intro x hx
      rcases List.mem_cons.mp hx with hxb | hxs
      · rw [hxb]
        exact hpb
      · exact hs x hxs

/-- C7: with an undefined historical mean, `get_top_link` returns none;
with stats `(avg, std)` it returns exactly the first link of the ranked
`get_items` result whose score reaches `avg + 2*std` and whose url is not
already in the top-content ledger (at most one per invocation, none when no
link qualifies). -/
theorem c7_get_top_link_spec (tweets : List Tweet) (users : List User)
    (contents : List Content) (ledger : List ℕ) (hours quantity nowM : ℕ)
    (out : List TopLink)
    (hgi : get_items tweets users contents quantity hours (nowM - hours * 60)
      nowM true nowM = .ok out) :
    get_top_link tweets users contents ledger none hours quantity nowM
      = .ok none
    ∧ ∀ avg std : ℝ, ∃ r,
        get_top_link tweets users contents ledger (some (avg, std)) hours
          quantity nowM = .ok r
        ∧ ((r = none ∧ ∀ l ∈ out, ¬(avg + 2 * std ≤ l.score ∧ l.url ∉ ledger))
          ∨ (∃ l s t, r = some l ∧ out = s ++ l :: t
              ∧ (avg + 2 * std ≤ l.score ∧ l.url ∉ ledger)
              ∧ ∀ x ∈ s, ¬(avg + 2 * std ≤ x.score ∧ x.url ∉ ledger))) := by
  constructor
  · simp [get_top_link, hgi]
  · intro avg std
    refine ⟨out.find? (fun l =>
      @decide (avg + 2 * std ≤ l.score ∧ l.url ∉ ledger)
        (Classical.propDecidable _)), ?_, ?_⟩
    · simp [get_top_link, hgi]
    · cases hf : out.find? (fun l =>
          @decide (avg + 2 * std ≤ l.score ∧ l.url ∉ ledger)
            (Classical.propDecidable _)) with
      | none =>
        left
        refine ⟨rfl, ?_⟩
        intro l hl hcontra
        have hnone := List.find?_eq_none.mp hf l hl
        exact hnone (@decide_eq_true _ (Classical.propDecidable _) hcontra)
      | some l =>
        right
        obtain ⟨s, t, hst, hpl, hs⟩ := find?_first hf
        refine ⟨l, s, t, rfl, hst,
          @of_decide_eq_true _ (Classical.propDecidable _) hpl, ?_⟩
        intro x hx hcontra
        have h2 := @decide_eq_true _ (Classical.propDecidable _) hcontra
        rw [hs x hx] at h2
        exact Bool.noConfusion h2

/-- C7 witness: the breakout specification at a concrete store and the
trailing 24-hour window. -/
theorem c7_witness :
    ∃ out, get_items [⟨1, 5, 3, 1500⟩, ⟨2, 6, 3, 1600⟩] [] [⟨3⟩]
        20 24 (2000 - 24 * 60) 2000 true 2000 = .ok out
      ∧ (get_top_link [⟨1, 5, 3, 1500⟩, ⟨2, 6, 3, 1600⟩] [] [⟨3⟩] []
          none 24 20 2000 = .ok none
        ∧ ∀ avg std : ℝ, ∃ r,
            get_top_link [⟨1, 5, 3, 1500⟩, ⟨2, 6, 3, 1600⟩] [] [⟨3⟩] []
              (some (avg, std)) 24 20 2000 = .ok r
            ∧ ((r = none ∧ ∀ l ∈ out,
                  ¬(avg + 2 * std ≤ l.score ∧ l.url ∉ ([] : List ℕ)))
              ∨ (∃ l s t, r = some l ∧ out = s ++ l :: t
                  ∧ (avg + 2 * std ≤ l.score ∧ l.url ∉ ([] : List ℕ))
                  ∧ ∀ x ∈ s,
                      ¬(avg + 2 * std ≤ x.score ∧ x.url ∉ ([] : List ℕ))))) := by
  have hok : (get_items [⟨1, 5, 3, 1500⟩, ⟨2, 6, 3, 1600⟩] [] [⟨3⟩]
      20 24 (2000 - 24 * 60) 2000 true 2000).isOk = true := rfl
  obtain ⟨out, hout⟩ := exists_ok_of_isOk hok
  exact ⟨out, hout,
    c7_get_top_link_spec [⟨1, 5, 3, 1500⟩, ⟨2, 6, 3, 1600⟩] [] [⟨3⟩] []
      24 20 2000 out hout⟩
